import Mathlib

/-!
Shallow embedding of the page-interleaving merge engine of
`src/src/PDFInserter.jsx` (function `processAll`, lines 75-144), together with
the geometry-normalization policies of the specification (§4.2).

Pages carry their declared size, an opaque content identifier and the uniform
scale factor applied to that content; documents are ordered page sequences.
`processAll` is embedded with its chunked merge loop (`CHUNK_SIZE = 50` in the
source; the chunk size is kept as a parameter so that batch-size independence
can be stated), its precondition checks, its whole-run try/catch, and the
per-chunk progress reports.
-/

structure Page where
  width : ℚ
  height : ℚ
  content : ℕ
  contentScale : ℚ
deriving DecidableEq

structure PDFDocument where
  pages : List Page
deriving DecidableEq

/-- Embeds `PDFDocument.create()` (line 100): a fresh empty output document. -/
def PDFDocument.create : PDFDocument := ⟨[]⟩

/-- Embeds `pdf.getPageCount()` (line 101). -/
def PDFDocument.getPageCount (d : PDFDocument) : ℕ := d.pages.length

/-- Embeds `outputPdf.addPage(p)` (lines 113, 119): appends `p` to the page sequence. -/
def PDFDocument.addPage (d : PDFDocument) (p : Page) : PDFDocument := ⟨d.pages ++ [p]⟩

/-- Embeds `page.getSize()` (line 117). -/
def Page.getSize (p : Page) : ℚ × ℚ := (p.width, p.height)

/-- Embeds `page.setSize(w, h)` (line 118): sets the declared page size only; content
and content scale are untouched. -/
def Page.setSize (p : Page) (w h : ℚ) : Page := { p with width := w, height := h }

def copyPagesAux (src : List Page) : List ℕ → Option (List Page)
  | [] => some []
  | i :: rest =>
    match src[i]? with
    | none => none
    | some p =>
      match copyPagesAux src rest with
      | none => none
      | some ps => some (p :: ps)

/-- pdf-lib `dest.copyPages(src, idxs)` (lines 109, 116): returns copies of the
pages of `src` at the given indexes, failing (throwing) if an index is out of
range; neither `src` nor `dest` gains or loses a page. -/
def PDFDocument.copyPages (src : PDFDocument) (idxs : List ℕ) : Option (List Page) :=
  copyPagesAux src.pages idxs

/-- A progress report emitted after a chunk completes (lines 126-128): the
status line reports pages up to `end` of `totalPages`. -/
structure ProgressEvent where
  position : ℕ
  total : ℕ
deriving DecidableEq

/-- The mutable state of one document's merge: the filler document
(`insertPdf`) and the output under construction (`outputPdf`). -/
structure MergeState where
  insertPdf : PDFDocument
  output : PDFDocument
deriving DecidableEq

/-- Inner per-page loop (lines 111-120): for each copied main page, append it,
copy the filler's page 0, set its size to the main page's size, append it. -/
def insertLoop (s : MergeState) : List Page → Option MergeState
  | [] => some s
  | mainPage :: rest =>
    let out1 := s.output.addPage mainPage
    match s.insertPdf.copyPages [0] with
    | some (insertPage :: _) =>
      let wh := mainPage.getSize
      let sized := insertPage.setSize wh.1 wh.2
      insertLoop ⟨s.insertPdf, out1.addPage sized⟩ rest
    | _ => none

/-- The batch plan implicit in the chunk loop (line 104): the list of
`[start, end)` ranges visited by `for (start = 0; start < total; start += c)`. -/
def chunkRanges (chunkSize total start : ℕ) : List (ℕ × ℕ) :=
  if _h : start < total ∧ 0 < chunkSize then
    (start, min (start + chunkSize) total) :: chunkRanges chunkSize total (start + chunkSize)
  else []
termination_by total - start
decreasing_by omega

/-- The chunked merge loop (lines 104-129): copy a chunk of main pages, run the
inner insertion loop over it, emit a progress report, continue with the next
chunk. Any copy failure aborts (propagates to the catch at line 138). -/
def chunkLoop (mainPdf : PDFDocument) (chunkSize totalPages start : ℕ)
    (s : MergeState) : Option (MergeState × List ProgressEvent) :=
  if _h : start < totalPages ∧ 0 < chunkSize then
    let endIdx := min (start + chunkSize) totalPages
    let pageIndexes := List.range' start (endIdx - start)
    match mainPdf.copyPages pageIndexes with
    | none => none
    | some mainPages =>
      match insertLoop s mainPages with
      | none => none
      | some s1 =>
        match chunkLoop mainPdf chunkSize totalPages (start + chunkSize) s1 with
        | none => none
        | some (sFinal, evs) => some (sFinal, ⟨endIdx, totalPages⟩ :: evs)
  else some (s, [])
termination_by totalPages - start
decreasing_by omega

/-- Embeds `CHUNK_SIZE` (line 102). -/
def CHUNK_SIZE : ℕ := 50

/-- One main document's merge (lines 100-129): fresh empty output, then the
chunk loop over all of the main document's pages. -/
def processDoc (insertPdf mainPdf : PDFDocument) (chunkSize : ℕ) :
    Option (MergeState × List ProgressEvent) :=
  chunkLoop mainPdf chunkSize mainPdf.getPageCount 0 ⟨insertPdf, PDFDocument.create⟩

/-- Outcome of loading a file's bytes with `PDFDocument.load` (lines 91, 98):
well-formed bytes yield a document, malformed bytes throw. -/
inductive LoadResult where
  | ok : PDFDocument → LoadResult
  | malformed : LoadResult
deriving DecidableEq

/-- The run-level outcomes surfaced through the status line: success (137),
missing filler (77), empty selection (81), and the catch-all merge error (140). -/
inductive RunOutcome where
  | success
  | missingFiller
  | noInput
  | mergeError
deriving DecidableEq

/-- Result of the document loop (lines 93-134): deliveries made via `saveAs`,
progress reports emitted, the index of the document whose failure aborted the
run (if any), how many documents entered processing, and the filler document
as it stands after the loop. -/
structure DocsResult where
  delivered : List (ℕ × List Page)
  events : List ProgressEvent
  failedAt : Option ℕ
  attempted : ℕ
  finalInsert : PDFDocument
deriving DecidableEq

/-- The document loop (lines 93-134). A malformed document or a merge failure
throws out of the `for` loop into the catch at line 138: no later document is
examined. A successful document is serialized and delivered (lines 132-133).
The filler document is threaded through so that its preservation is a
statement, not a convention. -/
def runDocs (chunkSize : ℕ) : ℕ → PDFDocument → List LoadResult → DocsResult
  | _, ins, [] => ⟨[], [], none, 0, ins⟩
  | idx, ins, f :: rest =>
    match f with
    | .malformed => ⟨[], [], some idx, 1, ins⟩
    | .ok mainPdf =>
      match processDoc ins mainPdf chunkSize with
      | none => ⟨[], [], some idx, 1, ins⟩
      | some (s, evs) =>
        let r := runDocs chunkSize (idx + 1) s.insertPdf rest
        ⟨(idx, s.output.pages) :: r.delivered, evs ++ r.events,
          r.failedAt, r.attempted + 1, r.finalInsert⟩

structure RunResult where
  delivered : List (ℕ × List Page)
  events : List ProgressEvent
  outcome : RunOutcome
  attempted : ℕ
deriving DecidableEq

/-- Embeds `processAll` (lines 75-144): the two precondition checks (lines 76-83),
the filler load (line 91), the document loop, and the try/catch that turns any
thrown error into the single run-level error status of line 140. -/
def processAll (insertFile : Option LoadResult) (mainFiles : List LoadResult)
    (chunkSize : ℕ) : RunResult :=
  match insertFile with
  | none => ⟨[], [], .missingFiller, 0⟩
  | some insertRes =>
    if mainFiles.isEmpty then ⟨[], [], .noInput, 0⟩
    else
      match insertRes with
      | .malformed => ⟨[], [], .mergeError, 0⟩
      | .ok insertPdf =>
        let r := runDocs chunkSize 0 insertPdf mainFiles
        ⟨r.delivered, r.events,
          if r.failedAt.isSome then .mergeError else .success, r.attempted⟩

/-- The two geometry-normalization policies of §4.2 of the specification. -/
inductive FitPolicy where
  | scaledFit
  | stretchFit
deriving DecidableEq

/-- Modelled from the spec: `computeFit(targetWidth, targetHeight, sourceWidth,
sourceHeight) -> (newWidth, newHeight, scaleFactor)` (§4.2). The scaled-fit
branch (`scaleFactor = min(targetWidth/sourceWidth, targetHeight/sourceHeight)`)
lives at a call site that is not part of `src/`; the stretch-fit branch embeds
the resize-only behavior of `src/src/PDFInserter.jsx` lines 116-119, which
rescales nothing. -/
def computeFit : FitPolicy → ℚ → ℚ → ℚ → ℚ → ℚ × ℚ × ℚ
  | .scaledFit, tw, th, sw, sh => (tw, th, min (tw / sw) (th / sh))
  | .stretchFit, tw, th, _, _ => (tw, th, 1)

/-- Applying a policy to a filler page against a target size: the page takes
the computed size and its content scale is multiplied by the computed factor. -/
def applyFit (pol : FitPolicy) (p : Page) (tw th : ℚ) : Page :=
  let r := computeFit pol tw th p.width p.height
  { p with width := r.1, height := r.2.1, contentScale := p.contentScale * r.2.2 }

/-- The shape of one interleaving step's contribution to the output: the main
page followed by the filler page resized to the main page's size. -/
def fillAfter (fp p : Page) : List Page := [p, fp.setSize p.width p.height]

/- Sample documents used by concrete instantiations. -/

def pageA : Page := ⟨600, 800, 1, 1⟩
def pageB : Page := ⟨300, 400, 2, 1⟩
def pageC : Page := ⟨1200, 800, 3, 1⟩
def fillerPage : Page := ⟨600, 800, 9, 1⟩
def fillerPage2 : Page := ⟨200, 300, 8, 1⟩

def fillerDoc : PDFDocument := ⟨[fillerPage]⟩
def fillerDocTwo : PDFDocument := ⟨[fillerPage, fillerPage2]⟩
def emptyFiller : PDFDocument := ⟨[]⟩
def mainDoc3 : PDFDocument := ⟨[pageA, pageB, pageC]⟩
def mainDoc2 : PDFDocument := ⟨[pageA, pageB]⟩
def mainDoc1 : PDFDocument := ⟨[pageC]⟩
def mainDoc0 : PDFDocument := ⟨[]⟩

/-! ### Basic unfolding lemmas -/

theorem chunkRanges_step {c total start : ℕ} (hc : 0 < c) (h : start < total) :
    chunkRanges c total start =
      (start, min (start + c) total) :: chunkRanges c total (start + c) := by
  rw [chunkRanges]
  simp [h, hc]

theorem chunkRanges_stop {c total start : ℕ} (h : total ≤ start) :
    chunkRanges c total start = [] := by
  rw [chunkRanges]
  simp
  omega

theorem chunkLoop_step {mainPdf : PDFDocument} {c total start : ℕ} {s : MergeState}
    (hc : 0 < c) (h : start < total) :
    chunkLoop mainPdf c total start s =
      (let endIdx := min (start + c) total
       match mainPdf.copyPages (List.range' start (endIdx - start)) with
       | none => none
       | some mainPages =>
         match insertLoop s mainPages with
         | none => none
         | some s1 =>
           match chunkLoop mainPdf c total (start + c) s1 with
           | none => none
           | some (sFinal, evs) => some (sFinal, ⟨endIdx, total⟩ :: evs)) := by
  rw [chunkLoop]
  simp [h, hc]

theorem chunkLoop_stop {mainPdf : PDFDocument} {c total start : ℕ} {s : MergeState}
    (h : total ≤ start) :
    chunkLoop mainPdf c total start s = some (s, []) := by
  rw [chunkLoop]
  have : ¬(start < total ∧ 0 < c) := by omega
  simp [this]

/-! ### Copying lemmas -/

theorem copyPagesAux_range' (xs : List Page) :
    ∀ (n start : ℕ), start + n ≤ xs.length →
      copyPagesAux xs (List.range' start n) = some ((xs.drop start).take n) := by
  intro n
  induction n with
  | zero => intro start _; simp [copyPagesAux]
  | succ m ih =>
    intro start hle
    have hlt : start < xs.length := by omega
    rw [List.range'_succ]
    simp only [copyPagesAux, List.getElem?_eq_getElem hlt]
    rw [ih (start + 1) (by omega)]
    rw [List.drop_eq_getElem_cons hlt, List.take_succ_cons]

theorem copyPages_zero {src : PDFDocument} {fp : Page} (h : src.pages[0]? = some fp) :
    src.copyPages [0] = some [fp] := by
  simp [PDFDocument.copyPages, copyPagesAux, h]

theorem copyPages_zero_empty {src : PDFDocument} (h : src.pages = []) :
    src.copyPages [0] = none := by
  simp [PDFDocument.copyPages, copyPagesAux, h]

/-! ### The inner insertion loop -/

theorem insertLoop_spec {fp : Page} :
    ∀ (ps : List Page) (s : MergeState), s.insertPdf.pages[0]? = some fp →
      insertLoop s ps =
        some ⟨s.insertPdf, ⟨s.output.pages ++ ps.flatMap (fillAfter fp)⟩⟩ := by
  intro ps
  induction ps with
  | nil => intro s _; simp [insertLoop]
  | cons p rest ih =>
    intro s hfp
    have hred : insertLoop s (p :: rest) =
        insertLoop ⟨s.insertPdf, (s.output.addPage p).addPage
          (fp.setSize p.getSize.1 p.getSize.2)⟩ rest := by
      rw [insertLoop, copyPages_zero hfp]
    rw [hred, ih ⟨s.insertPdf, (s.output.addPage p).addPage
      (fp.setSize p.getSize.1 p.getSize.2)⟩ hfp]
    simp [PDFDocument.addPage, fillAfter, Page.getSize]

theorem insertLoop_fail {s : MergeState} {p : Page} {rest : List Page}
    (h : s.insertPdf.pages = []) : insertLoop s (p :: rest) = none := by
  rw [insertLoop]
  rw [copyPages_zero_empty h]

/-! ### Chunk loop characterization -/

theorem chunkLoop_step_some {mainPdf : PDFDocument} {c total start : ℕ}
    {s s1 : MergeState} {mp : List Page}
    (hc : 0 < c) (hlt : start < total)
    (hcp : mainPdf.copyPages (List.range' start (min (start + c) total - start)) = some mp)
    (hins : insertLoop s mp = some s1) :
    chunkLoop mainPdf c total start s =
      (chunkLoop mainPdf c total (start + c) s1).map
        (fun r => (r.1, ⟨min (start + c) total, total⟩ :: r.2)) := by
  rw [chunkLoop_step hc hlt]
  simp only [hcp]
  cases hrec : chunkLoop mainPdf c total (start + c) s1 with
  | none => simp [hins, hrec]
  | some r => cases r; simp [hins, hrec]

theorem chunkLoop_step_copyFail {mainPdf : PDFDocument} {c total start : ℕ}
    {s : MergeState}
    (hc : 0 < c) (hlt : start < total)
    (hcp : mainPdf.copyPages (List.range' start (min (start + c) total - start)) = none) :
    chunkLoop mainPdf c total start s = none := by
  rw [chunkLoop_step hc hlt]
  simp [hcp]

theorem chunkLoop_step_insertFail {mainPdf : PDFDocument} {c total start : ℕ}
    {s : MergeState} {mp : List Page}
    (hc : 0 < c) (hlt : start < total)
    (hcp : mainPdf.copyPages (List.range' start (min (start + c) total - start)) = some mp)
    (hins : insertLoop s mp = none) :
    chunkLoop mainPdf c total start s = none := by
  rw [chunkLoop_step hc hlt]
  simp [hcp, hins]

theorem drop_flatMap_split {α β : Type} (xs : List α) (f : α → List β) {x c : ℕ}
    (hx : x < xs.length) :
    (xs.drop x).flatMap f =
      ((xs.drop x).take (min (x + c) xs.length - x)).flatMap f
        ++ (xs.drop (x + c)).flatMap f := by
  have h2 : (xs.drop x).drop (min (x + c) xs.length - x) = xs.drop (x + c) := by
    rw [List.drop_drop]
    have h3 : x + (min (x + c) xs.length - x) = min (x + c) xs.length := by omega
    rw [h3]
    rcases le_or_lt (x + c) xs.length with h | h
    · rw [min_eq_left h]
    · rw [min_eq_right h.le, List.drop_length]
      exact (List.drop_eq_nil_of_le h.le).symm
  nth_rewrite 1 [(List.take_append_drop (min (x + c) xs.length - x) (xs.drop x)).symm]
  rw [List.flatMap_append, h2]

theorem chunkLoop_spec (mainPdf : PDFDocument) {c : ℕ} (hc : 0 < c) {fp : Page} :
    ∀ (start : ℕ) (s : MergeState), s.insertPdf.pages[0]? = some fp →
      chunkLoop mainPdf c mainPdf.getPageCount start s =
        some (⟨s.insertPdf,
            ⟨s.output.pages ++ (mainPdf.pages.drop start).flatMap (fillAfter fp)⟩⟩,
          (chunkRanges c mainPdf.getPageCount start).map
            (fun r => ⟨r.2, mainPdf.getPageCount⟩)) := by
  refine chunkRanges.induct c mainPdf.getPageCount _ ?_ ?_
  · intro x hx ih s hfp
    simp only [PDFDocument.getPageCount] at *
    have hlt : x < mainPdf.pages.length := hx.1
    have hn : x + (min (x + c) mainPdf.pages.length - x) ≤ mainPdf.pages.length := by omega
    have hcp : mainPdf.copyPages
        (List.range' x (min (x + c) mainPdf.pages.length - x)) =
        some ((mainPdf.pages.drop x).take (min (x + c) mainPdf.pages.length - x)) :=
      copyPagesAux_range' mainPdf.pages _ x hn
    have hins := insertLoop_spec
      ((mainPdf.pages.drop x).take (min (x + c) mainPdf.pages.length - x)) s hfp
    rw [chunkLoop_step_some hc hlt hcp hins]
    rw [ih ⟨s.insertPdf, ⟨s.output.pages ++
      ((mainPdf.pages.drop x).take (min (x + c) mainPdf.pages.length - x)).flatMap
        (fillAfter fp)⟩⟩ hfp]
    rw [chunkRanges_step hc hlt]
    simp only [List.map_cons]
    rw [List.append_assoc, ← drop_flatMap_split mainPdf.pages (fillAfter fp) hlt]
    rfl
  · intro x hx s _
    simp only [PDFDocument.getPageCount] at *
    have hge : mainPdf.pages.length ≤ x := by omega
    rw [chunkLoop_stop hge, chunkRanges_stop hge]
    rw [List.drop_eq_nil_of_le hge]
    simp

theorem chunkLoop_emptyFiller {mainPdf : PDFDocument} {c start : ℕ} {s : MergeState}
    (hc : 0 < c) (hlt : start < mainPdf.getPageCount) (hins : s.insertPdf.pages = []) :
    chunkLoop mainPdf c mainPdf.getPageCount start s = none := by
  simp only [PDFDocument.getPageCount] at *
  have hn : start + (min (start + c) mainPdf.pages.length - start) ≤ mainPdf.pages.length := by
    omega
  have hcp := copyPagesAux_range' mainPdf.pages (min (start + c) mainPdf.pages.length - start)
    start hn
  cases hsl : (mainPdf.pages.drop start).take (min (start + c) mainPdf.pages.length - start) with
  | nil =>
    exfalso
    have hlen := congrArg List.length hsl
    simp [List.length_take, List.length_drop] at hlen
    omega
  | cons p rest =>
    rw [hsl] at hcp
    exact chunkLoop_step_insertFail hc hlt hcp (insertLoop_fail hins)

theorem processDoc_spec {insertPdf mainPdf : PDFDocument} {c : ℕ} {fp : Page}
    (hc : 0 < c) (hfp : insertPdf.pages[0]? = some fp) :
    processDoc insertPdf mainPdf c =
      some (⟨insertPdf, ⟨mainPdf.pages.flatMap (fillAfter fp)⟩⟩,
        (chunkRanges c mainPdf.getPageCount 0).map
          (fun r => ⟨r.2, mainPdf.getPageCount⟩)) := by
  have h := chunkLoop_spec mainPdf hc 0 ⟨insertPdf, PDFDocument.create⟩ hfp
  simpa [processDoc, PDFDocument.create] using h

theorem processDoc_emptyFiller {insertPdf mainPdf : PDFDocument} {c : ℕ}
    (hc : 0 < c) (hins : insertPdf.pages = []) (hmain : 0 < mainPdf.getPageCount) :
    processDoc insertPdf mainPdf c = none :=
  chunkLoop_emptyFiller hc hmain hins

theorem processDoc_emptyMain {insertPdf mainPdf : PDFDocument} {c : ℕ}
    (hmain : mainPdf.getPageCount = 0) :
    processDoc insertPdf mainPdf c = some (⟨insertPdf, PDFDocument.create⟩, []) := by
  unfold processDoc
  exact chunkLoop_stop (by omega)

/-! ### Frame lemmas: the filler document is never written -/

theorem insertLoop_insert_eq {ps : List Page} {s s1 : MergeState}
    (h : insertLoop s ps = some s1) : s1.insertPdf = s.insertPdf := by
  cases hfp : s.insertPdf.pages[0]? with
  | some fp =>
    rw [insertLoop_spec ps s hfp] at h
    cases h
    rfl
  | none =>
    have hnil : s.insertPdf.pages = [] := by
      cases hp : s.insertPdf.pages with
      | nil => rfl
      | cons a l => rw [hp] at hfp; simp at hfp
    cases ps with
    | nil =>
      simp [insertLoop] at h
      rw [← h]
    | cons p rest =>
      rw [insertLoop_fail hnil] at h
      simp at h

theorem chunkLoop_insert_eq {mainPdf : PDFDocument} {c total : ℕ} :
    ∀ (start : ℕ) (s st : MergeState) (evs : List ProgressEvent),
      chunkLoop mainPdf c total start s = some (st, evs) → st.insertPdf = s.insertPdf := by
  refine chunkRanges.induct c total _ ?_ ?_
  · intro x hx ih s st evs h
    rw [chunkLoop_step hx.2 hx.1] at h
    cases hcp : mainPdf.copyPages (List.range' x (min (x + c) total - x)) with
    | none => simp [hcp] at h
    | some mp =>
      simp only [hcp] at h
      cases hil : insertLoop s mp with
      | none => simp [hil] at h
      | some s1 =>
        simp only [hil] at h
        cases hrec : chunkLoop mainPdf c total (x + c) s1 with
        | none => simp [hrec] at h
        | some r =>
          obtain ⟨st2, evs2⟩ := r
          simp only [hrec] at h
          simp at h
          rw [← h.1]
          rw [ih s1 st2 evs2 hrec]
          exact insertLoop_insert_eq hil
  · intro x hx s st evs h
    rw [chunkLoop] at h
    simp [hx] at h
    rw [← h.1]

theorem processDoc_insert_eq {insertPdf mainPdf : PDFDocument} {c : ℕ}
    {st : MergeState} {evs : List ProgressEvent}
    (h : processDoc insertPdf mainPdf c = some (st, evs)) : st.insertPdf = insertPdf :=
  chunkLoop_insert_eq 0 ⟨insertPdf, PDFDocument.create⟩ st evs h

/-! ### Document-loop lemmas -/

theorem runDocs_delivered_spec {c : ℕ} :
    ∀ (fs : List LoadResult) (idx : ℕ) (ins : PDFDocument) (pr : ℕ × List Page),
      pr ∈ (runDocs c idx ins fs).delivered →
      ∃ j m st evs, fs[j]? = some (.ok m) ∧ pr.1 = idx + j ∧
        processDoc ins m c = some (st, evs) ∧ pr.2 = st.output.pages := by
  intro fs
  induction fs with
  | nil => intro idx ins pr h; simp [runDocs] at h
  | cons f rest ih =>
    intro idx ins pr h
    cases f with
    | malformed => simp [runDocs] at h
    | ok m =>
      rw [runDocs] at h
      cases hpd : processDoc ins m c with
      | none => simp [hpd] at h
      | some r =>
        obtain ⟨st, evs⟩ := r
        simp only [hpd] at h
        simp at h
        rcases h with h | h
        · exact ⟨0, m, st, evs, by simp, by simp [h], hpd, by simp [h]⟩
        · have hpres := processDoc_insert_eq hpd
          have hrec := ih (idx + 1) st.insertPdf pr h
          rw [hpres] at hrec
          obtain ⟨j, m2, st2, evs2, h1, h2, h3, h4⟩ := hrec
          exact ⟨j + 1, m2, st2, evs2, by simpa using h1, by omega, h3, h4⟩

theorem runDocs_insert_preserved {c : ℕ} :
    ∀ (fs : List LoadResult) (idx : ℕ) (ins : PDFDocument),
      (runDocs c idx ins fs).finalInsert = ins := by
  intro fs
  induction fs with
  | nil => intro idx ins; simp [runDocs]
  | cons f rest ih =>
    intro idx ins
    cases f with
    | malformed => simp [runDocs]
    | ok m =>
      rw [runDocs]
      cases hpd : processDoc ins m c with
      | none => simp [hpd]
      | some r =>
        obtain ⟨st, evs⟩ := r
        simp only [hpd]
        have := ih (idx + 1) st.insertPdf
        simp only [this]
        exact processDoc_insert_eq hpd

theorem runDocs_abort {c : ℕ} :
    ∀ (pre : List LoadResult) (idx : ℕ) (ins : PDFDocument)
      (rest rest' : List LoadResult),
      runDocs c idx ins (pre ++ LoadResult.malformed :: rest) =
        runDocs c idx ins (pre ++ LoadResult.malformed :: rest') ∧
      (runDocs c idx ins (pre ++ LoadResult.malformed :: rest)).failedAt.isSome := by
  intro pre
  induction pre with
  | nil =>
    intro idx ins rest rest'
    constructor
    · rw [List.nil_append, List.nil_append, runDocs, runDocs]
    · rw [List.nil_append, runDocs]
      rfl
  | cons f pre' ih =>
    intro idx ins rest rest'
    cases f with
    | malformed =>
      constructor
      · rw [List.cons_append, List.cons_append, runDocs, runDocs]
      · rw [List.cons_append, runDocs]
        rfl
    | ok m =>
      rw [List.cons_append, List.cons_append, runDocs, runDocs]
      cases hpd : processDoc ins m c with
      | none => simp [hpd]
      | some r =>
        obtain ⟨st, evs⟩ := r
        simp only [hpd]
        obtain ⟨h1, h2⟩ := ih (idx + 1) st.insertPdf rest rest'
        refine ⟨by rw [h1], ?_⟩
        simpa using h2

/-! ### Batch-plan ordering lemmas -/

theorem chunkRanges_chain {c total : ℕ} (hc : 0 < c) :
    ∀ start, List.Chain' (fun a b : ℕ × ℕ => a.2 ≤ b.2) (chunkRanges c total start) := by
  refine chunkRanges.induct c total _ ?_ ?_
  · intro x hx ih
    rw [chunkRanges_step hx.2 hx.1]
    rw [List.chain'_cons']
    refine ⟨?_, ih⟩
    intro y hy
    by_cases h2 : x + c < total
    · rw [chunkRanges_step hc h2] at hy
      simp at hy
      rw [← hy]
      simp
    · rw [chunkRanges_stop (by omega)] at hy
      simp at hy
  · intro x hx
    rw [chunkRanges]
    simp [hx]

theorem chunkRanges_last {c total : ℕ} (hc : 0 < c) :
    ∀ start, start < total →
      ∃ s0, (chunkRanges c total start).getLast? = some (s0, total) := by
  refine chunkRanges.induct c total _ ?_ ?_
  · intro x hx ih hlt
    rw [chunkRanges_step hx.2 hx.1]
    by_cases h2 : x + c < total
    · obtain ⟨s0, hs0⟩ := ih h2
      refine ⟨s0, ?_⟩
      rw [List.getLast?_cons, hs0]
      rfl
    · rw [chunkRanges_stop (by omega)]
      refine ⟨x, ?_⟩
      simp
      omega
  · intro x hx hlt
    exact absurd ⟨hlt, hc⟩ hx

/-! ### Indexing the interleaved output -/

theorem flatMap_fillAfter_getElem (fp : Page) :
    ∀ (l : List Page) (i : ℕ) (p : Page), l[i]? = some p →
      (l.flatMap (fillAfter fp))[2 * i]? = some p ∧
      (l.flatMap (fillAfter fp))[2 * i + 1]? = some (fp.setSize p.width p.height) := by
  intro l
  induction l with
  | nil => intro i p h; simp at h
  | cons a t ih =>
    intro i p h
    cases i with
    | zero =>
      simp at h
      subst h
      simp [fillAfter]
    | succ j =>
      simp at h
      have hih := ih j p h
      have e1 : 2 * (j + 1) = 2 * j + 1 + 1 := by omega
      rw [e1]
      simpa [fillAfter] using hih

theorem flatMap_fillAfter_length (fp : Page) :
    ∀ l : List Page, (l.flatMap (fillAfter fp)).length = 2 * l.length := by
  intro l
  induction l with
  | nil => simp
  | cons a t ih =>
    simp only [List.flatMap_cons, List.length_append, List.length_cons, ih, fillAfter]
    simp
    omega

/-! ### Claim theorems -/

/-- C1: for every main document with P pages (P ≥ 0) and a single-page filler,
the run over that document succeeds and produces an output with exactly 2P
pages in the order main₀, filler-copy₀, main₁, filler-copy₁, …, with the main
pages in their original order (the filler copy after each main page is the
filler page resized to that main page's size). -/
theorem merged_output_interleaves (insertPdf mainPdf : PDFDocument) (fp : Page)
    (hins : insertPdf.pages = [fp]) :
    ∃ st evs, processDoc insertPdf mainPdf CHUNK_SIZE = some (st, evs) ∧
      st.output.pages = mainPdf.pages.flatMap (fillAfter fp) ∧
      st.output.pages.length = 2 * mainPdf.getPageCount := by
  have hfp : insertPdf.pages[0]? = some fp := by rw [hins]; rfl
  refine ⟨_, _, processDoc_spec (by decide) hfp, rfl, ?_⟩
  simp only [PDFDocument.getPageCount]
  exact flatMap_fillAfter_length fp mainPdf.pages

/-- C1 witness: the theorem applied to a three-page main document and the
sample one-page filler. -/
theorem merged_output_interleaves_witness :
    fillerDoc.pages = [fillerPage] ∧
    (∃ st evs, processDoc fillerDoc mainDoc3 CHUNK_SIZE = some (st, evs) ∧
      st.output.pages = mainDoc3.pages.flatMap (fillAfter fillerPage) ∧
      st.output.pages.length = 2 * mainDoc3.getPageCount) :=
  ⟨rfl, merged_output_interleaves fillerDoc mainDoc3 fillerPage rfl⟩

/-- C2: for every batch size B ≥ 1 the merge of one main document yields an
identical final merge state (same output page sequence, hence same geometry);
only the progress reports depend on the batching. -/
theorem merge_chunkSize_independent (insertPdf mainPdf : PDFDocument) (B B' : ℕ)
    (hB : 1 ≤ B) (hB' : 1 ≤ B') :
    (processDoc insertPdf mainPdf B).map Prod.fst =
      (processDoc insertPdf mainPdf B').map Prod.fst := by
  cases hfp : insertPdf.pages[0]? with
  | some fp =>
    rw [processDoc_spec hB hfp, processDoc_spec hB' hfp]
    rfl
  | none =>
    have hnil : insertPdf.pages = [] := by
      cases hp : insertPdf.pages with
      | nil => rfl
      | cons a l => rw [hp] at hfp; simp at hfp
    rcases Nat.eq_zero_or_pos mainPdf.getPageCount with hm | hm
    · rw [processDoc_emptyMain hm, processDoc_emptyMain hm]
    · rw [processDoc_emptyFiller hB hnil hm, processDoc_emptyFiller hB' hnil hm]

/-- C2 witness: batch sizes 1 and 50 produce the same merged output on the
sample inputs. -/
theorem merge_chunkSize_independent_witness :
    1 ≤ 1 ∧ 1 ≤ 50 ∧
    (processDoc fillerDoc mainDoc3 1).map Prod.fst =
      (processDoc fillerDoc mainDoc3 50).map Prod.fst :=
  ⟨by decide, by decide,
    merge_chunkSize_independent fillerDoc mainDoc3 1 50 (by decide) (by decide)⟩

/-- C8: for a main document with zero pages the batch plan is empty, the merge
loop performs zero iterations (no progress reports), the output document stays
empty, and the run is a success, not an error. -/
theorem zero_page_main_succeeds (insertPdf mainPdf : PDFDocument) (B : ℕ)
    (hmain : mainPdf.getPageCount = 0) :
    chunkRanges B mainPdf.getPageCount 0 = [] ∧
    processDoc insertPdf mainPdf B = some (⟨insertPdf, PDFDocument.create⟩, []) ∧
    PDFDocument.create.pages = [] :=
  ⟨chunkRanges_stop (by omega), processDoc_emptyMain hmain, rfl⟩

/-- C8 witness: the theorem applied to the empty sample main document. -/
theorem zero_page_main_succeeds_witness :
    mainDoc0.getPageCount = 0 ∧
    (chunkRanges CHUNK_SIZE mainDoc0.getPageCount 0 = [] ∧
      processDoc fillerDoc mainDoc0 CHUNK_SIZE =
        some (⟨fillerDoc, PDFDocument.create⟩, []) ∧
      PDFDocument.create.pages = []) :=
  ⟨rfl, zero_page_main_succeeds fillerDoc mainDoc0 CHUNK_SIZE rfl⟩

/-- C3 counterexample: with two main files of which the first is malformed,
the run aborts — only one document is attempted, nothing is delivered (the
second, well-formed document is never processed), and a single run-level merge
error is reported, contradicting the claim that the other N−1 documents are
still attempted. -/
theorem failure_aborts_run_counterexample :
    (processAll (some (.ok fillerDoc)) [.malformed, .ok mainDoc1] CHUNK_SIZE).attempted
        = 1 ∧
    (processAll (some (.ok fillerDoc)) [.malformed, .ok mainDoc1] CHUNK_SIZE).delivered
        = [] ∧
    (processAll (some (.ok fillerDoc)) [.malformed, .ok mainDoc1] CHUNK_SIZE).outcome
        = .mergeError :=
  ⟨rfl, rfl, rfl⟩

/-- C3 amended: a failure while processing one main document aborts the whole
run. Everything after the first malformed document is never examined (the run
result does not depend on it) and the run ends in the single catch-all merge
error. -/
theorem failure_aborts_run (ins : PDFDocument) (pre rest rest' : List LoadResult)
    (B : ℕ) :
    processAll (some (.ok ins)) (pre ++ LoadResult.malformed :: rest) B =
      processAll (some (.ok ins)) (pre ++ LoadResult.malformed :: rest') B ∧
    (processAll (some (.ok ins)) (pre ++ LoadResult.malformed :: rest) B).outcome
      = .mergeError := by
  obtain ⟨h1, h2⟩ := runDocs_abort pre 0 ins rest rest'
  have hne : (pre ++ LoadResult.malformed :: rest).isEmpty = false := by
    cases pre <;> rfl
  have hne' : (pre ++ LoadResult.malformed :: rest').isEmpty = false := by
    cases pre <;> rfl
  constructor
  · simp only [processAll, hne, hne', Bool.false_eq_true, if_false]
    rw [h1]
  · simp only [processAll, hne, Bool.false_eq_true, if_false]
    simp [h2]

/-- C5: if the merge of one main document fails (any page copy or insertion
failure makes `processDoc` return `none`), then nothing for that document is
ever delivered: the partially built output is discarded, never serialized and
never handed to the delivery collaborator. -/
theorem failed_merge_never_delivered (ins : PDFDocument) (fs : List LoadResult)
    (B k : ℕ) (m : PDFDocument) (pages : List Page)
    (hk : fs[k]? = some (.ok m))
    (hfail : processDoc ins m B = none) :
    (k, pages) ∉ (processAll (some (.ok ins)) fs B).delivered := by
  intro hmem
  have hne : fs.isEmpty = false := by
    cases fs with
    | nil => simp at hk
    | cons a l => rfl
  simp only [processAll, hne, Bool.false_eq_true, if_false] at hmem
  obtain ⟨j, m2, st, evs, h1, h2, h3, h4⟩ :=
    runDocs_delivered_spec fs 0 ins (k, pages) hmem
  have hj : j = k := by omega
  rw [hj, hk] at h1
  have hm2 : m2 = m := by
    injection h1 with h1
    injection h1 with h1
    exact h1.symm
  rw [hm2] at h3
  rw [h3] at hfail
  exact Option.noConfusion hfail

/-- C5 witness: a zero-page filler makes the first insertion fail for a
one-page main document; the run delivers nothing for it. -/
theorem failed_merge_never_delivered_witness :
    ([LoadResult.ok mainDoc1][0]? = some (.ok mainDoc1)) ∧
    processDoc emptyFiller mainDoc1 CHUNK_SIZE = none ∧
    (0, ([] : List Page)) ∉
      (processAll (some (.ok emptyFiller)) [.ok mainDoc1] CHUNK_SIZE).delivered := by
  have hfail : processDoc emptyFiller mainDoc1 CHUNK_SIZE = none :=
    processDoc_emptyFiller (by decide) rfl (by decide)
  exact ⟨rfl, hfail,
    failed_merge_never_delivered emptyFiller [.ok mainDoc1] CHUNK_SIZE 0 mainDoc1 []
      rfl hfail⟩

/-- C6 counterexample: a filler with two pages does not resolve to exactly one
page, yet the run does not abort with a missing-filler error — it processes
the main document and succeeds, using only the filler's first page. -/
theorem multiPage_filler_accepted_counterexample :
    fillerDocTwo.getPageCount = 2 ∧
    (processAll (some (.ok fillerDocTwo)) [.ok mainDoc1] CHUNK_SIZE).outcome
      = .success ∧
    (processAll (some (.ok fillerDocTwo)) [.ok mainDoc1] CHUNK_SIZE).attempted = 1 := by
  have hpd : processDoc fillerDocTwo mainDoc1 CHUNK_SIZE =
      some (⟨fillerDocTwo, ⟨mainDoc1.pages.flatMap (fillAfter fillerPage)⟩⟩,
        (chunkRanges CHUNK_SIZE mainDoc1.getPageCount 0).map
          (fun r => ⟨r.2, mainDoc1.getPageCount⟩)) :=
    processDoc_spec (by decide) rfl
  refine ⟨rfl, ?_, ?_⟩ <;> simp [processAll, runDocs, hpd]

/-- C6 amended: before any document processing begins the code checks only
that a filler file is present (else the missing-filler status) and that the
main list is non-empty (else the no-input status); in both cases no document
is touched. The filler's page count is never validated: with any loaded filler
the outcome is never the missing-filler error. -/
theorem run_preconditions (fs : List LoadResult) (r : LoadResult)
    (ins : PDFDocument) (B : ℕ) :
    processAll none fs B = ⟨[], [], .missingFiller, 0⟩ ∧
    processAll (some r) [] B = ⟨[], [], .noInput, 0⟩ ∧
    (processAll (some (.ok ins)) fs B).outcome ≠ .missingFiller := by
  refine ⟨rfl, rfl, ?_⟩
  by_cases hfs : fs.isEmpty
  · simp [processAll, hfs]
  · simp only [processAll, Bool.not_eq_true] at hfs ⊢
    rw [hfs]
    simp only [Bool.false_eq_true, if_false]
    split <;> simp

/-- C9: copying a page appends it to the destination's page sequence and never
mutates the source; in particular the filler document is read-only: it is
unchanged after a whole document merge and after the loop over all main
documents of a run. -/
theorem filler_document_readonly (d : PDFDocument) (p : Page)
    (ins mainPdf : PDFDocument) (B : ℕ) (st : MergeState) (evs : List ProgressEvent)
    (idx : ℕ) (fs : List LoadResult)
    (h : processDoc ins mainPdf B = some (st, evs)) :
    (d.addPage p).pages = d.pages ++ [p] ∧
    st.insertPdf = ins ∧
    (runDocs B idx ins fs).finalInsert = ins :=
  ⟨rfl, processDoc_insert_eq h, runDocs_insert_preserved fs idx ins⟩

/-- C9 witness: the theorem applied to the sample filler and a two-page main
document. -/
theorem filler_document_readonly_witness :
    processDoc fillerDoc mainDoc2 CHUNK_SIZE =
      some (⟨fillerDoc, ⟨mainDoc2.pages.flatMap (fillAfter fillerPage)⟩⟩,
        (chunkRanges CHUNK_SIZE mainDoc2.getPageCount 0).map
          (fun r => ⟨r.2, mainDoc2.getPageCount⟩)) ∧
    ((mainDoc1.addPage pageA).pages = mainDoc1.pages ++ [pageA] ∧
      (⟨fillerDoc, ⟨mainDoc2.pages.flatMap (fillAfter fillerPage)⟩⟩ :
        MergeState).insertPdf = fillerDoc ∧
      (runDocs CHUNK_SIZE 0 fillerDoc [.ok mainDoc2]).finalInsert = fillerDoc) := by
  have h : processDoc fillerDoc mainDoc2 CHUNK_SIZE =
      some (⟨fillerDoc, ⟨mainDoc2.pages.flatMap (fillAfter fillerPage)⟩⟩,
        (chunkRanges CHUNK_SIZE mainDoc2.getPageCount 0).map
          (fun r => ⟨r.2, mainDoc2.getPageCount⟩)) :=
    processDoc_spec (by decide) rfl
  exact ⟨h, filler_document_readonly mainDoc1 pageA fillerDoc mainDoc2 CHUNK_SIZE
    _ _ 0 [.ok mainDoc2] h⟩

/-- C10: with a single-page filler, every filler copy in the merged output sits
at odd position 2i+1, its declared size is exactly the width and height of the
main page at position 2i immediately before it, and its content and content
scale are the filler's own, untouched — the resize-only behavior is applied
unconditionally to every insertion. -/
theorem filler_copy_resize_only (ins mainPdf : PDFDocument) (B : ℕ) (fp : Page)
    (st : MergeState) (evs : List ProgressEvent) (i : ℕ) (p : Page)
    (hB : 1 ≤ B) (hins : ins.pages = [fp])
    (h : processDoc ins mainPdf B = some (st, evs))
    (hp : mainPdf.pages[i]? = some p) :
    st.output.pages[2 * i]? = some p ∧
    st.output.pages[2 * i + 1]? =
      some ⟨p.width, p.height, fp.content, fp.contentScale⟩ := by
  have hfp : ins.pages[0]? = some fp := by rw [hins]; rfl
  rw [processDoc_spec hB hfp] at h
  cases h
  have hidx := flatMap_fillAfter_getElem fp mainPdf.pages i p hp
  refine ⟨hidx.1, ?_⟩
  rw [hidx.2]
  rfl

/-- C10 witness: the theorem applied at index 1 of a three-page main
document. -/
theorem filler_copy_resize_only_witness :
    1 ≤ CHUNK_SIZE ∧ fillerDoc.pages = [fillerPage] ∧
    mainDoc3.pages[1]? = some pageB ∧
    processDoc fillerDoc mainDoc3 CHUNK_SIZE =
      some (⟨fillerDoc, ⟨mainDoc3.pages.flatMap (fillAfter fillerPage)⟩⟩,
        (chunkRanges CHUNK_SIZE mainDoc3.getPageCount 0).map
          (fun r => ⟨r.2, mainDoc3.getPageCount⟩)) ∧
    ((⟨fillerDoc, ⟨mainDoc3.pages.flatMap (fillAfter fillerPage)⟩⟩ :
        MergeState).output.pages[2 * 1]? = some pageB ∧
      (⟨fillerDoc, ⟨mainDoc3.pages.flatMap (fillAfter fillerPage)⟩⟩ :
        MergeState).output.pages[2 * 1 + 1]? =
        some ⟨pageB.width, pageB.height, fillerPage.content,
          fillerPage.contentScale⟩) := by
  have h : processDoc fillerDoc mainDoc3 CHUNK_SIZE =
      some (⟨fillerDoc, ⟨mainDoc3.pages.flatMap (fillAfter fillerPage)⟩⟩,
        (chunkRanges CHUNK_SIZE mainDoc3.getPageCount 0).map
          (fun r => ⟨r.2, mainDoc3.getPageCount⟩)) :=
    processDoc_spec (by decide) rfl
  exact ⟨by decide, rfl, rfl, h,
    filler_copy_resize_only fillerDoc mainDoc3 CHUNK_SIZE fillerPage _ _ 1 pageB
      (by decide) rfl h rfl⟩

/-- C4: the geometry normalization exposes the two named, selectable policies.
Scaled-fit computes `scaleFactor = min(targetWidth/sourceWidth,
targetHeight/sourceHeight)`, resizes the page to the target size and scales its
content uniformly by that factor; the scaled content fits inside the target
boundary and keeps the source's aspect ratio. Stretch-fit (the behavior of
lines 116-119 of the source) sets the page size to the target without any
content rescaling. -/
theorem geometry_policies (tw th sw sh : ℚ)
    (htw : 0 < tw) (hth : 0 < th) (hsw : 0 < sw) (hsh : 0 < sh) :
    computeFit .scaledFit tw th sw sh = (tw, th, min (tw / sw) (th / sh)) ∧
    computeFit .stretchFit tw th sw sh = (tw, th, 1) ∧
    sw * min (tw / sw) (th / sh) ≤ tw ∧
    sh * min (tw / sw) (th / sh) ≤ th ∧
    sw * min (tw / sw) (th / sh) / (sh * min (tw / sw) (th / sh)) = sw / sh ∧
    (∀ p : Page, applyFit .scaledFit p tw th =
      ⟨tw, th, p.content, p.contentScale * min (tw / p.width) (th / p.height)⟩) ∧
    (∀ p : Page, applyFit .stretchFit p tw th = p.setSize tw th) := by
  have hf : 0 < min (tw / sw) (th / sh) := lt_min (div_pos htw hsw) (div_pos hth hsh)
  refine ⟨rfl, rfl, ?_, ?_, ?_, fun p => rfl, ?_⟩
  · calc sw * min (tw / sw) (th / sh)
        ≤ sw * (tw / sw) := mul_le_mul_of_nonneg_left (min_le_left _ _) hsw.le
      _ = tw := by field_simp
  · calc sh * min (tw / sw) (th / sh)
        ≤ sh * (th / sh) := mul_le_mul_of_nonneg_left (min_le_right _ _) hsh.le
      _ = th := by field_simp
  · rw [mul_comm sw _, mul_comm sh _]
    exact mul_div_mul_left sw sh (ne_of_gt hf)
  · intro p
    simp [applyFit, computeFit, Page.setSize]

/-- C4 witness: the theorem applied to a 600×800 target and a 300×400 source
(identical aspect ratios, scale factor 2). -/
theorem geometry_policies_witness :
    (0 : ℚ) < 600 ∧ (0 : ℚ) < 800 ∧ (0 : ℚ) < 300 ∧ (0 : ℚ) < 400 ∧
    (computeFit .scaledFit 600 800 300 400 =
        (600, 800, min (600 / 300 : ℚ) (800 / 400)) ∧
      computeFit .stretchFit 600 800 300 400 = (600, 800, 1) ∧
      (300 : ℚ) * min (600 / 300 : ℚ) (800 / 400) ≤ 600 ∧
      (400 : ℚ) * min (600 / 300 : ℚ) (800 / 400) ≤ 800 ∧
      (300 : ℚ) * min (600 / 300 : ℚ) (800 / 400) /
          ((400 : ℚ) * min (600 / 300 : ℚ) (800 / 400)) = 300 / 400 ∧
      (∀ p : Page, applyFit .scaledFit p 600 800 =
        ⟨600, 800, p.content, p.contentScale * min (600 / p.width) (800 / p.height)⟩) ∧
      (∀ p : Page, applyFit .stretchFit p 600 800 = p.setSize 600 800)) :=
  ⟨by norm_num, by norm_num, by norm_num, by norm_num,
    geometry_policies 600 800 300 400 (by norm_num) (by norm_num) (by norm_num)
      (by norm_num)⟩

/-! ### Concrete evaluations of the chunk loop (used by the progress claim) -/

theorem processDoc_mainDoc2_eval :
    processDoc fillerDoc mainDoc2 CHUNK_SIZE =
      some (⟨fillerDoc, ⟨mainDoc2.pages.flatMap (fillAfter fillerPage)⟩⟩,
        [⟨2, 2⟩]) := by
  rw [processDoc_spec (by decide)
    (show fillerDoc.pages[0]? = some fillerPage from rfl)]
  rw [chunkRanges_step (by decide) (by decide), chunkRanges_stop (by decide)]
  decide

theorem processDoc_mainDoc1_eval :
    processDoc fillerDoc mainDoc1 CHUNK_SIZE =
      some (⟨fillerDoc, ⟨mainDoc1.pages.flatMap (fillAfter fillerPage)⟩⟩,
        [⟨1, 1⟩]) := by
  rw [processDoc_spec (by decide)
    (show fillerDoc.pages[0]? = some fillerPage from rfl)]
  rw [chunkRanges_step (by decide) (by decide), chunkRanges_stop (by decide)]
  decide

/-- C7 counterexample: a successful run over two main documents (two pages,
then one page) emits progress positions 2 then 1 — the position sequence of a
whole run is not monotonically non-decreasing, because the position resets for
each document. -/
theorem progress_not_monotone_counterexample :
    (processAll (some (.ok fillerDoc)) [.ok mainDoc2, .ok mainDoc1]
        CHUNK_SIZE).outcome = .success ∧
    (processAll (some (.ok fillerDoc)) [.ok mainDoc2, .ok mainDoc1]
        CHUNK_SIZE).events.map ProgressEvent.position = [2, 1] ∧
    ¬ List.Chain' (· ≤ ·)
      ((processAll (some (.ok fillerDoc)) [.ok mainDoc2, .ok mainDoc1]
        CHUNK_SIZE).events.map ProgressEvent.position) := by
  refine ⟨?_, ?_, ?_⟩ <;>
    simp [processAll, runDocs, processDoc_mainDoc2_eval, processDoc_mainDoc1_eval]

/-- C7 amended: within the processing of each single main document the emitted
progress positions are monotonically non-decreasing, every event reports that
document's page count as total, and if the document has at least one page its
final event reports position equal to total; across the documents of a run the
position restarts for each document and may decrease (see the counterexample
run). -/
theorem progress_monotone_within_document (ins mainPdf : PDFDocument) (B : ℕ)
    (st : MergeState) (evs : List ProgressEvent)
    (hB : 1 ≤ B) (h : processDoc ins mainPdf B = some (st, evs)) :
    List.Chain' (· ≤ ·) (evs.map ProgressEvent.position) ∧
    (∀ e ∈ evs, e.total = mainPdf.getPageCount) ∧
    (1 ≤ mainPdf.getPageCount →
      evs.getLast? = some ⟨mainPdf.getPageCount, mainPdf.getPageCount⟩) := by
  cases hfp : ins.pages[0]? with
  | some fp =>
    rw [processDoc_spec hB hfp] at h
    cases h
    refine ⟨?_, ?_, ?_⟩
    · rw [List.map_map, List.chain'_map]
      exact chunkRanges_chain hB 0
    · intro e he
      obtain ⟨r, hr, hre⟩ := List.mem_map.mp he
      rw [← hre]
    · intro hP
      obtain ⟨s0, hs0⟩ := chunkRanges_last hB 0 hP
      rw [List.getLast?_map, hs0]
      rfl
  | none =>
    have hnil : ins.pages = [] := by
      cases hp : ins.pages with
      | nil => rfl
      | cons a l => rw [hp] at hfp; simp at hfp
    rcases Nat.eq_zero_or_pos mainPdf.getPageCount with hm | hm
    · rw [processDoc_emptyMain hm] at h
      cases h
      exact ⟨List.chain'_nil, by simp, by intro h1; omega⟩
    · rw [processDoc_emptyFiller hB hnil hm] at h
      exact Option.noConfusion h

/-- C7 amended witness: the theorem applied to the two-page sample document. -/
theorem progress_monotone_within_document_witness :
    1 ≤ CHUNK_SIZE ∧
    processDoc fillerDoc mainDoc2 CHUNK_SIZE =
      some (⟨fillerDoc, ⟨mainDoc2.pages.flatMap (fillAfter fillerPage)⟩⟩,
        [⟨2, 2⟩]) ∧
    (List.Chain' (· ≤ ·) (([⟨2, 2⟩] : List ProgressEvent).map
        ProgressEvent.position) ∧
      (∀ e ∈ ([⟨2, 2⟩] : List ProgressEvent), e.total = mainDoc2.getPageCount) ∧
      (1 ≤ mainDoc2.getPageCount →
        ([⟨2, 2⟩] : List ProgressEvent).getLast? =
          some ⟨mainDoc2.getPageCount, mainDoc2.getPageCount⟩)) :=
  ⟨by decide, processDoc_mainDoc2_eval,
    progress_monotone_within_document fillerDoc mainDoc2 CHUNK_SIZE _ _
      (by decide) processDoc_mainDoc2_eval⟩
